import Mathlib

/-!
Shallow embedding of `src/energypylinear/battery/battery.py`: a battery
price-arbitrage linear program built for an external LP solver, and the
projection of solved variable values into per-timestep result rows.
Numbers are modelled as rationals; a variable's possibly missing solved
value as `Option ℚ`; exceptions raised by `optimize` and
`generate_outputs` as `Except PyErr`.
-/

namespace EPL

/-- Exception kinds the embedded code can raise. -/
inductive PyErr
  | keyError
  | assertionError
  | typeError
  | indexError
deriving DecidableEq, Repr

/-- Embeds the module-level `steps` dict: steps-per-hour factor for each
timestep key; `none` models the `KeyError` on an unknown key. -/
def steps (timestep : String) : Option ℚ :=
  if timestep = "5min" then some (60 / 5)
  else if timestep = "30min" then some (60 / 30)
  else if timestep = "60min" then some 1
  else if timestep = "1hr" then some 1
  else none

/-- Embeds the `Battery` object: the three parameters stored by `__init__`. -/
structure Battery where
  power : ℚ
  capacity : ℚ
  efficiency : ℚ
deriving DecidableEq, Repr

/-- Embeds `Battery.__init__`: stores the (float-coerced) parameters with no
validation whatsoever. -/
def Battery.init (power capacity efficiency : ℚ) : Battery :=
  { power := power, capacity := capacity, efficiency := efficiency }

/-- Names of the pulp decision variables, one constructor per variable family. -/
inductive Var
  | imp (i : ℕ)
  | exp (i : ℕ)
  | chg (i : ℕ)
  | loss (i : ℕ)
deriving DecidableEq, Repr

/-- Index domains of the four `LpVariable.dicts` created by `setup_vars`. -/
structure VarDicts where
  imports : List ℕ
  exports : List ℕ
  charges : List ℕ
  losses : List ℕ
deriving DecidableEq, Repr

/-- Embeds `Battery.setup_vars`: imports and exports range over `idx[:-1]`,
while charges and losses range over the full `idx`. -/
def setup_vars (idx : List ℕ) : VarDicts :=
  { imports := idx.dropLast
    exports := idx.dropLast
    charges := idx
    losses := idx }

/-- Upper bound passed to `LpVariable.dicts` (`none` means unbounded above);
every family has lower bound 0. -/
def varUpBound (power : ℚ) : Var → Option ℚ
  | .imp _ => some power
  | .exp _ => some power
  | .chg _ => none
  | .loss _ => none

/-- Linear expressions over the decision variables, as assembled with pulp. -/
inductive LinExpr
  | const (c : ℚ)
  | var (v : Var)
  | add (a b : LinExpr)
  | sub (a b : LinExpr)
  | mul (c : ℚ) (e : LinExpr)
  | div (e : LinExpr) (c : ℚ)
deriving DecidableEq, Repr

/-- Linear constraints added to the `LpProblem`. -/
inductive Constr
  | eqC (a b : LinExpr)
  | leC (a b : LinExpr)
  | geC (a b : LinExpr)
deriving DecidableEq, Repr

/-- Embeds pulp's `lpSum` over a list of expressions. -/
def lpSum (l : List LinExpr) : LinExpr := l.foldl .add (.const 0)

/-- Value of a linear expression under a total assignment. -/
def evalE (sol : Var → ℚ) : LinExpr → ℚ
  | .const c => c
  | .var v => sol v
  | .add a b => evalE sol a + evalE sol b
  | .sub a b => evalE sol a - evalE sol b
  | .mul c e => c * evalE sol e
  | .div e c => evalE sol e / c

/-- Whether an assignment satisfies one constraint. -/
def constrHolds (sol : Var → ℚ) : Constr → Bool
  | .eqC a b => decide (evalE sol a = evalE sol b)
  | .leC a b => decide (evalE sol a ≤ evalE sol b)
  | .geC a b => decide (evalE sol b ≤ evalE sol a)

/-- Variables occurring in an expression. -/
def varsE : LinExpr → List Var
  | .const _ => []
  | .var v => [v]
  | .add a b => varsE a ++ varsE b
  | .sub a b => varsE a ++ varsE b
  | .mul _ e => varsE e
  | .div e _ => varsE e

/-- Variables occurring in a constraint. -/
def varsC : Constr → List Var
  | .eqC a b => varsE a ++ varsE b
  | .leC a b => varsE a ++ varsE b
  | .geC a b => varsE a ++ varsE b

/-- State assembled by `Battery.optimize` before the external solve:
battery parameters, step factor, initial charge, the price list extended
with the `None` sentinel, the forecast list after defaulting, and the
timestep label. `N` is the length of the caller's price list. -/
structure Model where
  N : ℕ
  power : ℚ
  capacity : ℚ
  efficiency : ℚ
  step : ℚ
  initial_charge : ℚ
  pricesExt : List (Option ℚ)
  forecastsExt : List (Option ℚ)
  timestep : String
deriving DecidableEq, Repr

/-- Embeds `idx = range(0, len(prices))` after the sentinel append. -/
def Model.idx (m : Model) : List ℕ := List.range (m.N + 1)

/-- Constraints added by the body of `optimize`: the initial-charge equality,
then for each `i` in `idx[:-1]` the energy balance, the capacity bound, the
non-negativity bound and the loss proportionality. -/
def Model.constraints (m : Model) : List Constr :=
  Constr.eqC (.var (.chg 0)) (.const m.initial_charge) ::
  (List.range m.N).flatMap fun i =>
    [Constr.eqC (.var (.chg (i + 1)))
        (.add (.var (.chg i))
          (.div (.sub (.sub (.var (.imp i)) (.var (.exp i))) (.var (.loss i))) m.step)),
     Constr.leC (.var (.chg i)) (.const m.capacity),
     Constr.geC (.var (.chg i)) (.const 0),
     Constr.eqC (.var (.loss i)) (.mul (1 - m.efficiency) (.var (.exp i)))]

/-- Objective added by `optimize`: `lpSum` of import-cost terms followed by
negated export-revenue terms, with coefficients read from the forecast list;
`none` models the `TypeError` Python would raise on a missing coefficient. -/
def Model.objective (m : Model) : Option LinExpr :=
  match (List.range m.N).mapM
          (fun i => (m.forecastsExt.getD i none).map fun c => LinExpr.mul c (.var (.imp i))),
        (List.range m.N).mapM
          (fun i => (m.forecastsExt.getD i none).map fun c => LinExpr.mul (-c) (.var (.exp i))) with
  | some t1, some t2 => some (lpSum (t1 ++ t2))
  | _, _ => none

/-- Variables that occur in the problem handed to the solver (objective or
constraints); pulp reports solver values only for these. -/
def Model.problemVars (m : Model) : List Var :=
  (match m.objective with
   | some e => varsE e
   | none => []) ++ m.constraints.flatMap varsC

/-- Whether one variable's value respects its creation bounds. -/
def satisfiesBounds (power : ℚ) (sol : Var → ℚ) (v : Var) : Bool :=
  decide (0 ≤ sol v) &&
    (match varUpBound power v with
     | none => true
     | some ub => decide (sol v ≤ ub))

/-- Feasibility of an assignment for the built model: every variable the
solver sees respects its bounds and every constraint holds. -/
def Feasible (m : Model) (sol : Var → ℚ) : Prop :=
  (∀ v ∈ m.problemVars, satisfiesBounds m.power sol v = true) ∧
    ∀ c ∈ m.constraints, constrHolds sol c = true

instance (m : Model) (sol : Var → ℚ) : Decidable (Feasible m sol) := by
  unfold Feasible; infer_instance

/-- Embeds `Battery.optimize` up to (not including) the external solve call:
the sentinel append, the `steps` lookup, the forecast defaulting and the
three assertions, in source order, ending with the assembled model. -/
def optimize (b : Battery) (prices : List ℚ) (forecasts : Option (List ℚ))
    (initial_charge : ℚ) (timestep : String) : Except PyErr Model :=
  let pricesExt : List (Option ℚ) := prices.map some ++ [none]
  match steps timestep with
  | none => .error .keyError
  | some step =>
    let forecastsExt : List (Option ℚ) :=
      match forecasts with
      | none => pricesExt
      | some fc => fc.map some
    if forecastsExt.length = pricesExt.length then
      if initial_charge ≤ b.capacity then
        if 0 ≤ initial_charge then
          .ok { N := prices.length, power := b.power, capacity := b.capacity,
                efficiency := b.efficiency, step := step,
                initial_charge := initial_charge, pricesExt := pricesExt,
                forecastsExt := forecastsExt, timestep := timestep }
        else .error .assertionError
      else .error .assertionError
    else .error .assertionError

/-- Embeds `self.vars['imports'].get(row_id)` and friends: dictionary lookup
returning the variable when the index is in the dict's domain. -/
def dictGet (dom : List ℕ) (mk : ℕ → Var) (i : ℕ) : Option Var :=
  if i ∈ dom then some (mk i) else none

/-- Embeds `get_value_or_nan`: `.value()` of a possibly missing variable,
with the `AttributeError` on `None` caught and turned into `None`. -/
def get_value_or_nan (sol : Var → Option ℚ) : Option Var → Option ℚ
  | none => none
  | some v => sol v

/-- Embeds `calc_net`: `None` if any input is `None`, else `imp - exp - loss`. -/
def calc_net (imp ex loss : Option ℚ) : Option ℚ :=
  match imp, ex, loss with
  | some i, some e, some l => some (i - e - l)
  | _, _, _ => none

/-- Embeds `calc_cost`: `None` when the energy is `None`; otherwise
`(energy * price) / step`, where a `None` price would raise `TypeError`. -/
def calc_cost (energy price : Option ℚ) (step : ℚ) : Except PyErr (Option ℚ) :=
  match energy with
  | none => .ok none
  | some e =>
    match price with
    | none => .error .typeError
    | some p => .ok (some (e * p / step))

/-- Embeds `calc_gross`: `imp - exp` with the `TypeError` on a `None` operand
caught and turned into `None`. -/
def calc_gross (imp ex : Option ℚ) : Option ℚ :=
  match imp, ex with
  | some i, some e => some (i - e)
  | _, _ => none

/-- Result rows are ordered mappings from field label to value. -/
abbrev Row := List (String × Option ℚ)

/-- Embeds `out[key] = value` on an `OrderedDict`: update in place when the
key exists, else append at the end. -/
def odSet (m : Row) (k : String) (v : Option ℚ) : Row :=
  if m.any fun p => p.1 == k then
    m.map fun p => if p.1 = k then (k, v) else p
  else m ++ [(k, v)]

/-- Embeds building an `OrderedDict` from the `result` pair list. -/
def odFromList (l : Row) : Row := l.foldl (fun acc kv => odSet acc kv.1 kv.2) []

/-- Embeds one iteration of the loop in `generate_outputs`: fetch the four
variable values, the price and forecast, derive net, the two costs and
gross, and assemble the ordered row. -/
def buildRow (m : Model) (vd : VarDicts) (sol : Var → Option ℚ) (row_id : ℕ) :
    Except PyErr Row :=
  let imp := get_value_or_nan sol (dictGet vd.imports Var.imp row_id)
  let ex := get_value_or_nan sol (dictGet vd.exports Var.exp row_id)
  let loss := get_value_or_nan sol (dictGet vd.losses Var.loss row_id)
  let chg := get_value_or_nan sol (dictGet vd.charges Var.chg row_id)
  match m.pricesExt[row_id]?, m.forecastsExt[row_id]? with
  | some price, some forecast =>
    let net := calc_net imp ex loss
    match calc_cost net price m.step, calc_cost net forecast m.step with
    | .ok actual_costs, .ok forecast_costs =>
      let gross := calc_gross imp ex
      .ok (odFromList
        [("Import [MW]", imp),
         ("Export [MW]", ex),
         ("Gross [MW]", gross),
         ("Net [MW]", net),
         ("Losses [MW]", loss),
         ("Charge [MWh]", chg),
         ("Prices [$/MWh]", price),
         ("Forecast [$/MWh]", forecast),
         ("Actual [$/" ++ m.timestep ++ "]", actual_costs),
         ("Forecast [$/" ++ m.timestep ++ "]", forecast_costs)])
    | .error e, _ => .error e
    | _, .error e => .error e
  | _, _ => .error .indexError

/-- Embeds the `for row_id in idx_range` loop of `generate_outputs`,
appending one row per index. -/
def outputsLoop (m : Model) (vd : VarDicts) (sol : Var → Option ℚ) :
    List ℕ → Except PyErr (List Row)
  | [] => .ok []
  | i :: rest =>
    match buildRow m vd sol i with
    | .error e => .error e
    | .ok r =>
      match outputsLoop m vd sol rest with
      | .error e => .error e
      | .ok rs => .ok (r :: rs)

/-- Embeds `Battery.generate_outputs`, with `self.vars = setup_vars(idx)`
exactly as `optimize` sets it. -/
def generate_outputs (m : Model) (sol : Var → Option ℚ) : Except PyErr (List Row) :=
  outputsLoop m (setup_vars m.idx) sol m.idx

/-- Field labels of a result row, in insertion order. -/
def rowKeys (ts : String) : List String :=
  ["Import [MW]", "Export [MW]", "Gross [MW]", "Net [MW]", "Losses [MW]",
   "Charge [MWh]", "Prices [$/MWh]", "Forecast [$/MWh]",
   "Actual [$/" ++ ts ++ "]", "Forecast [$/" ++ ts ++ "]"]

instance {ε α : Type} [DecidableEq ε] [DecidableEq α] : DecidableEq (Except ε α)
  | .error a, .error b =>
    if h : a = b then .isTrue (congrArg _ h)
    else .isFalse fun hh => h (Except.error.inj hh)
  | .error _, .ok _ => .isFalse fun hh => Except.noConfusion hh
  | .ok _, .error _ => .isFalse fun hh => Except.noConfusion hh
  | .ok a, .ok b =>
    if h : a = b then .isTrue (congrArg _ h)
    else .isFalse fun hh => h (Except.ok.inj hh)

/-! ### Basic facts about the embedded definitions -/

theorem steps_cases (ts : String) (s : ℚ) (h : steps ts = some s) :
    ts = "5min" ∨ ts = "30min" ∨ ts = "60min" ∨ ts = "1hr" := by
  unfold steps at h
  split_ifs at h <;> simp_all

theorem steps_values :
    steps "5min" = some 12 ∧ steps "30min" = some 2 ∧
      steps "60min" = some 1 ∧ steps "1hr" = some 1 := by
  refine ⟨?_, ?_, ?_, ?_⟩ <;> simp only [steps] <;> norm_num <;> decide

theorem mapM_option_eq_map {α β : Type} (f : α → Option β) (g : α → β)
    (l : List α) (h : ∀ a ∈ l, f a = some (g a)) : l.mapM f = some (l.map g) := by
  induction l with
  | nil => rfl
  | cons a t ih =>
    rw [List.mapM_cons, h a (List.mem_cons_self a t),
      ih fun x hx => h x (List.mem_cons_of_mem a hx)]
    rfl

theorem mapM_option_mem {α β : Type} (f : α → Option β) (l : List α)
    (ys : List β) (h : l.mapM f = some ys) : ∀ y ∈ ys, ∃ a ∈ l, f a = some y := by
  induction l generalizing ys with
  | nil =>
    simp only [List.mapM_nil, pure, Option.some.injEq] at h
    subst h; simp
  | cons a t ih =>
    rw [List.mapM_cons] at h
    cases hfa : f a with
    | none => rw [hfa] at h; simp at h
    | some b =>
      rw [hfa] at h
      cases hmt : t.mapM f with
      | none => rw [hmt] at h; simp [Option.bind] at h
      | some bs =>
        rw [hmt] at h
        simp only [Option.bind_eq_bind, Option.some_bind, pure, Option.some.injEq] at h
        subst h
        intro y hy
        rcases List.mem_cons.mp hy with hy | hy
        · exact ⟨a, List.mem_cons_self a t, hy ▸ hfa⟩
        · rcases ih bs hmt y hy with ⟨x, hx, hfx⟩
          exact ⟨x, List.mem_cons_of_mem a hx, hfx⟩

theorem varsE_foldl_add (l : List LinExpr) (acc : LinExpr) :
    varsE (l.foldl .add acc) = varsE acc ++ l.flatMap varsE := by
  induction l generalizing acc with
  | nil => simp
  | cons e t ih => simp [List.foldl_cons, ih, varsE, List.append_assoc]

theorem varsE_lpSum (l : List LinExpr) : varsE (lpSum l) = l.flatMap varsE := by
  simp [lpSum, varsE_foldl_add, varsE]

theorem evalE_foldl_add (sol : Var → ℚ) (l : List LinExpr) (acc : LinExpr) :
    evalE sol (l.foldl .add acc) = evalE sol acc + (l.map (evalE sol)).sum := by
  induction l generalizing acc with
  | nil => simp
  | cons e t ih => simp [List.foldl_cons, ih, evalE]; ring

theorem evalE_lpSum (sol : Var → ℚ) (l : List LinExpr) :
    evalE sol (lpSum l) = (l.map (evalE sol)).sum := by
  simp [lpSum, evalE_foldl_add, evalE]

theorem odSet_of_not_mem (acc : Row) (k : String) (v : Option ℚ)
    (h : k ∉ acc.map Prod.fst) : odSet acc k v = acc ++ [(k, v)] := by
  unfold odSet
  rw [if_neg]
  simp only [List.any_eq_true, beq_iff_eq, not_exists, not_and]
  intro p hp hpk
  exact h (hpk ▸ List.mem_map_of_mem Prod.fst hp)

theorem foldl_odSet_nodup (l acc : Row)
    (h : ((acc ++ l).map Prod.fst).Nodup) :
    l.foldl (fun a kv => odSet a kv.1 kv.2) acc = acc ++ l := by
  induction l generalizing acc with
  | nil => simp
  | cons kv t ih =>
    have hk : kv.1 ∉ acc.map Prod.fst := by
      intro hmem
      rw [List.map_append, List.nodup_append] at h
      exact h.2.2 hmem (by simp)
    rw [List.foldl_cons, odSet_of_not_mem acc kv.1 kv.2 hk]
    have := ih (acc ++ [kv]) (by simpa using h)
    simpa using this

theorem odFromList_of_nodup (l : Row) (h : (l.map Prod.fst).Nodup) :
    odFromList l = l := by
  have := foldl_odSet_nodup l [] (by simpa using h)
  simpa [odFromList] using this

theorem rowKeys_nodup (ts : String)
    (h : ts = "5min" ∨ ts = "30min" ∨ ts = "60min" ∨ ts = "1hr") :
    (rowKeys ts).Nodup := by
  rcases h with h | h | h | h <;> subst h <;> decide

/-- Characterisation of a successful `optimize` call. -/
theorem optimize_ok_iff (b : Battery) (prices : List ℚ) (fc : Option (List ℚ))
    (ic : ℚ) (ts : String) (m : Model) :
    optimize b prices fc ic ts = .ok m ↔
      ∃ s, steps ts = some s ∧
        (match fc with
         | none => (prices.map some ++ [none] : List (Option ℚ))
         | some l => l.map some).length = prices.length + 1 ∧
        ic ≤ b.capacity ∧ 0 ≤ ic ∧
        m = { N := prices.length, power := b.power, capacity := b.capacity,
              efficiency := b.efficiency, step := s, initial_charge := ic,
              pricesExt := prices.map some ++ [none],
              forecastsExt :=
                match fc with
                | none => prices.map some ++ [none]
                | some l => l.map some,
              timestep := ts } := by
  unfold optimize
  cases hs : steps ts with
  | none => simp
  | some s =>
    simp only []
    split_ifs with h1 h2 h3
    · constructor
      · intro h
        cases h
        exact ⟨s, rfl, by simpa using h1, h2, h3, rfl⟩
      · rintro ⟨s', hs', -, -, -, hm⟩
        cases hs'
        rw [hm]
    · constructor
      · intro h; exact absurd h (by simp)
      · rintro ⟨s', hs', -, -, h3', -⟩
        exact absurd h3' h3
    · constructor
      · intro h; exact absurd h (by simp)
      · rintro ⟨s', hs', -, h2', -, -⟩
        exact absurd h2' h2
    · constructor
      · intro h; exact absurd h (by simp)
      · rintro ⟨s', hs', h1', -, -, -⟩
        cases hs'
        exact absurd (by simpa using h1') h1

/-- Coefficient of timestep `i` in the objective (the forecast at `i`). -/
def fcoef (m : Model) (i : ℕ) : ℚ := (m.forecastsExt.getD i none).getD 0

theorem getD_map_some_lt {l : List ℚ} {i : ℕ} (hi : i < l.length) :
    ((l.map some : List (Option ℚ)).getD i none) = some (l.getD i 0) := by
  rw [List.getD_eq_getElem?_getD, List.getD_eq_getElem?_getD, List.getElem?_map,
    List.getElem?_eq_getElem hi]
  rfl

theorem getD_ext_lt {l : List ℚ} {i : ℕ} (hi : i < l.length) :
    ((l.map some ++ [none] : List (Option ℚ)).getD i none) = some (l.getD i 0) := by
  rw [List.getD_eq_getElem?_getD, List.getElem?_append_left (by simpa using hi),
    ← List.getD_eq_getElem?_getD, getD_map_some_lt hi]

theorem optimize_coefs (b : Battery) (prices : List ℚ) (fc : Option (List ℚ))
    (ic : ℚ) (ts : String) (m : Model) (h : optimize b prices fc ic ts = .ok m) :
    ∀ i < m.N, m.forecastsExt.getD i none = some (fcoef m i) := by
  intro i hi
  rcases (optimize_ok_iff b prices fc ic ts m).mp h with ⟨s, -, hlen, -, -, hm⟩
  subst hm
  cases fc with
  | none =>
    dsimp only at hi ⊢
    have hip : i < prices.length := by simpa using hi
    rw [fcoef]
    dsimp only
    rw [getD_ext_lt hip]
    rfl
  | some l =>
    dsimp only at hlen hi ⊢
    have hil : i < l.length := by
      simp only [List.length_map] at hlen
      omega
    rw [fcoef]
    dsimp only
    rw [getD_map_some_lt hil]
    rfl

theorem objective_eq (m : Model)
    (h : ∀ i < m.N, m.forecastsExt.getD i none = some (fcoef m i)) :
    m.objective = some (lpSum
      (((List.range m.N).map fun i => LinExpr.mul (fcoef m i) (.var (.imp i))) ++
       ((List.range m.N).map fun i => LinExpr.mul (-(fcoef m i)) (.var (.exp i))))) := by
  unfold Model.objective
  rw [mapM_option_eq_map _ (fun i => LinExpr.mul (fcoef m i) (.var (.imp i))) _
      (fun i hi => by rw [h i (List.mem_range.mp hi)]; rfl),
    mapM_option_eq_map _ (fun i => LinExpr.mul (-(fcoef m i)) (.var (.exp i))) _
      (fun i hi => by rw [h i (List.mem_range.mp hi)]; rfl)]

theorem mem_constraints_iff (m : Model) (c : Constr) :
    c ∈ m.constraints ↔
      c = Constr.eqC (.var (.chg 0)) (.const m.initial_charge) ∨
      ∃ i < m.N,
        c = Constr.eqC (.var (.chg (i + 1)))
              (.add (.var (.chg i))
                (.div (.sub (.sub (.var (.imp i)) (.var (.exp i))) (.var (.loss i)))
                  m.step)) ∨
        c = Constr.leC (.var (.chg i)) (.const m.capacity) ∨
        c = Constr.geC (.var (.chg i)) (.const 0) ∨
        c = Constr.eqC (.var (.loss i)) (.mul (1 - m.efficiency) (.var (.exp i))) := by
  simp [Model.constraints, List.mem_flatMap, List.mem_range]

theorem feasible_initial (m : Model) (sol : Var → ℚ) (h : Feasible m sol) :
    sol (.chg 0) = m.initial_charge := by
  have := h.2 _ ((mem_constraints_iff m _).mpr (Or.inl rfl))
  simpa [constrHolds, evalE] using this

theorem feasible_balance (m : Model) (sol : Var → ℚ) (h : Feasible m sol)
    (i : ℕ) (hi : i < m.N) :
    sol (.chg (i + 1)) =
      sol (.chg i) + (sol (.imp i) - sol (.exp i) - sol (.loss i)) / m.step := by
  have := h.2 _ ((mem_constraints_iff m _).mpr (Or.inr ⟨i, hi, Or.inl rfl⟩))
  simpa [constrHolds, evalE] using this

theorem feasible_cap (m : Model) (sol : Var → ℚ) (h : Feasible m sol)
    (i : ℕ) (hi : i < m.N) : sol (.chg i) ≤ m.capacity := by
  have := h.2 _ ((mem_constraints_iff m _).mpr (Or.inr ⟨i, hi, Or.inr (Or.inl rfl)⟩))
  simpa [constrHolds, evalE] using this

theorem feasible_chg_nonneg (m : Model) (sol : Var → ℚ) (h : Feasible m sol)
    (i : ℕ) (hi : i < m.N) : 0 ≤ sol (.chg i) := by
  have := h.2 _ ((mem_constraints_iff m _).mpr
    (Or.inr ⟨i, hi, Or.inr (Or.inr (Or.inl rfl))⟩))
  simpa [constrHolds, evalE] using this

theorem feasible_loss (m : Model) (sol : Var → ℚ) (h : Feasible m sol)
    (i : ℕ) (hi : i < m.N) :
    sol (.loss i) = sol (.exp i) * (1 - m.efficiency) := by
  have := h.2 _ ((mem_constraints_iff m _).mpr
    (Or.inr ⟨i, hi, Or.inr (Or.inr (Or.inr rfl))⟩))
  have h2 : sol (.loss i) = (1 - m.efficiency) * sol (.exp i) := by
    simpa [constrHolds, evalE] using this
  linarith [h2]

theorem chg_mem_problemVars (m : Model) (i : ℕ) (hi : i ≤ m.N) :
    Var.chg i ∈ m.problemVars := by
  apply List.mem_append_right
  rw [List.mem_flatMap]
  cases i with
  | zero =>
    exact ⟨_, (mem_constraints_iff m _).mpr (Or.inl rfl), by simp [varsC, varsE]⟩
  | succ j =>
    exact ⟨_, (mem_constraints_iff m _).mpr (Or.inr ⟨j, by omega, Or.inl rfl⟩),
      by simp [varsC, varsE]⟩

theorem imp_mem_problemVars (m : Model) (i : ℕ) (hi : i < m.N) :
    Var.imp i ∈ m.problemVars := by
  apply List.mem_append_right
  rw [List.mem_flatMap]
  exact ⟨_, (mem_constraints_iff m _).mpr (Or.inr ⟨i, hi, Or.inl rfl⟩),
    by simp [varsC, varsE]⟩

theorem exp_mem_problemVars (m : Model) (i : ℕ) (hi : i < m.N) :
    Var.exp i ∈ m.problemVars := by
  apply List.mem_append_right
  rw [List.mem_flatMap]
  exact ⟨_, (mem_constraints_iff m _).mpr (Or.inr ⟨i, hi, Or.inl rfl⟩),
    by simp [varsC, varsE]⟩

theorem loss_mem_problemVars (m : Model) (i : ℕ) (hi : i < m.N) :
    Var.loss i ∈ m.problemVars := by
  apply List.mem_append_right
  rw [List.mem_flatMap]
  exact ⟨_, (mem_constraints_iff m _).mpr (Or.inr ⟨i, hi, Or.inl rfl⟩),
    by simp [varsC, varsE]⟩

/-- Every variable the solver sees is an import, export or loss at a
timestep index, or a charge at an index up to the terminal one. -/
theorem mem_problemVars_elim (m : Model)
    (hc : ∀ i < m.N, m.forecastsExt.getD i none = some (fcoef m i))
    (v : Var) (hv : v ∈ m.problemVars) :
    (∃ i < m.N, v = .imp i ∨ v = .exp i ∨ v = .loss i) ∨
      ∃ i, i ≤ m.N ∧ v = .chg i := by
  rw [Model.problemVars, objective_eq m hc] at hv
  dsimp only at hv
  rcases List.mem_append.mp hv with hv | hv
  · rw [varsE_lpSum, List.mem_flatMap] at hv
    rcases hv with ⟨e, he, hve⟩
    rcases List.mem_append.mp he with he | he <;>
    · rcases List.mem_map.mp he with ⟨i, hi, rfl⟩
      simp only [varsE, List.mem_singleton] at hve
      exact Or.inl ⟨i, List.mem_range.mp hi, by tauto⟩
  · rw [List.mem_flatMap] at hv
    rcases hv with ⟨c, hcm, hvc⟩
    rcases (mem_constraints_iff m c).mp hcm with rfl | ⟨i, hi, rfl | rfl | rfl | rfl⟩
    · have he : varsC (Constr.eqC (.var (.chg 0)) (.const m.initial_charge)) =
          [Var.chg 0] := by simp [varsC, varsE]
      rw [he, List.mem_singleton] at hvc
      exact Or.inr ⟨0, Nat.zero_le _, hvc⟩
    · have he : varsC (Constr.eqC (.var (.chg (i + 1)))
          (.add (.var (.chg i))
            (.div (.sub (.sub (.var (.imp i)) (.var (.exp i))) (.var (.loss i)))
              m.step))) =
          [Var.chg (i + 1), Var.chg i, Var.imp i, Var.exp i, Var.loss i] := by
        simp [varsC, varsE]
      rw [he] at hvc
      simp only [List.mem_cons, List.not_mem_nil, or_false] at hvc
      rcases hvc with rfl | rfl | rfl | rfl | rfl
      · exact Or.inr ⟨i + 1, by omega, rfl⟩
      · exact Or.inr ⟨i, by omega, rfl⟩
      · exact Or.inl ⟨i, hi, by tauto⟩
      · exact Or.inl ⟨i, hi, by tauto⟩
      · exact Or.inl ⟨i, hi, by tauto⟩
    · have he : varsC (Constr.leC (.var (.chg i)) (.const m.capacity)) =
          [Var.chg i] := by simp [varsC, varsE]
      rw [he, List.mem_singleton] at hvc
      exact Or.inr ⟨i, by omega, hvc⟩
    · have he : varsC (Constr.geC (.var (.chg i)) (.const 0)) =
          [Var.chg i] := by simp [varsC, varsE]
      rw [he, List.mem_singleton] at hvc
      exact Or.inr ⟨i, by omega, hvc⟩
    · have he : varsC (Constr.eqC (.var (.loss i))
          (.mul (1 - m.efficiency) (.var (.exp i)))) =
          [Var.loss i, Var.exp i] := by simp [varsC, varsE]
      rw [he] at hvc
      simp only [List.mem_cons, List.not_mem_nil, or_false] at hvc
      rcases hvc with rfl | rfl
      · exact Or.inl ⟨i, hi, by tauto⟩
      · exact Or.inl ⟨i, hi, by tauto⟩

/-- Full characterisation of feasibility for a model built by `optimize`. -/
theorem feasible_iff (m : Model)
    (hc : ∀ i < m.N, m.forecastsExt.getD i none = some (fcoef m i))
    (sol : Var → ℚ) :
    Feasible m sol ↔
      (∀ i < m.N, 0 ≤ sol (.imp i) ∧ sol (.imp i) ≤ m.power) ∧
      (∀ i < m.N, 0 ≤ sol (.exp i) ∧ sol (.exp i) ≤ m.power) ∧
      (∀ i ≤ m.N, 0 ≤ sol (.chg i)) ∧
      (∀ i < m.N, 0 ≤ sol (.loss i)) ∧
      sol (.chg 0) = m.initial_charge ∧
      (∀ i < m.N, sol (.chg (i + 1)) =
        sol (.chg i) + (sol (.imp i) - sol (.exp i) - sol (.loss i)) / m.step) ∧
      (∀ i < m.N, sol (.chg i) ≤ m.capacity) ∧
      (∀ i < m.N, sol (.loss i) = sol (.exp i) * (1 - m.efficiency)) := by
  constructor
  · intro h
    refine ⟨?_, ?_, ?_, ?_, feasible_initial m sol h,
      fun i hi => feasible_balance m sol h i hi,
      fun i hi => feasible_cap m sol h i hi,
      fun i hi => feasible_loss m sol h i hi⟩
    · intro i hi
      have := h.1 _ (imp_mem_problemVars m i hi)
      simpa [satisfiesBounds, varUpBound, Bool.and_eq_true,
        decide_eq_true_eq] using this
    · intro i hi
      have := h.1 _ (exp_mem_problemVars m i hi)
      simpa [satisfiesBounds, varUpBound, Bool.and_eq_true,
        decide_eq_true_eq] using this
    · intro i hi
      have := h.1 _ (chg_mem_problemVars m i hi)
      simpa [satisfiesBounds, varUpBound, Bool.and_eq_true,
        decide_eq_true_eq] using this
    · intro i hi
      have := h.1 _ (loss_mem_problemVars m i hi)
      simpa [satisfiesBounds, varUpBound, Bool.and_eq_true,
        decide_eq_true_eq] using this
  · rintro ⟨h1, h2, h3, h4, h5, h6, h7, h8⟩
    constructor
    · intro v hv
      rcases mem_problemVars_elim m hc v hv with ⟨i, hi, rfl | rfl | rfl⟩ | ⟨i, hi, rfl⟩
      · simpa [satisfiesBounds, varUpBound, Bool.and_eq_true,
          decide_eq_true_eq] using h1 i hi
      · simpa [satisfiesBounds, varUpBound, Bool.and_eq_true,
          decide_eq_true_eq] using h2 i hi
      · simpa [satisfiesBounds, varUpBound, Bool.and_eq_true,
          decide_eq_true_eq] using h4 i hi
      · simpa [satisfiesBounds, varUpBound, Bool.and_eq_true,
          decide_eq_true_eq] using h3 i hi
    · intro c hcm
      rcases (mem_constraints_iff m c).mp hcm with rfl | ⟨i, hi, rfl | rfl | rfl | rfl⟩
      · simp [constrHolds, evalE, h5]
      · simp only [constrHolds, evalE, decide_eq_true_eq]
        exact h6 i hi
      · simp only [constrHolds, evalE, decide_eq_true_eq]
        exact h7 i hi
      · simp only [constrHolds, evalE, decide_eq_true_eq, ge_iff_le]
        exact h3 i (le_of_lt hi)
      · simp only [constrHolds, evalE, decide_eq_true_eq]
        rw [h8 i hi]
        ring

theorem getElem?_map_some_lt {l : List ℚ} {i : ℕ} (hi : i < l.length) :
    (l.map some : List (Option ℚ))[i]? = some (some (l.getD i 0)) := by
  rw [List.getElem?_map, List.getElem?_eq_getElem hi]
  simp [List.getD_eq_getElem?_getD, List.getElem?_eq_getElem hi]

theorem getElem?_ext_lt {l : List ℚ} {i : ℕ} (hi : i < l.length) :
    (l.map some ++ [none] : List (Option ℚ))[i]? = some (some (l.getD i 0)) := by
  rw [List.getElem?_append_left (by simpa using hi), getElem?_map_some_lt hi]

theorem getElem?_ext_len (l : List ℚ) :
    (l.map some ++ [none] : List (Option ℚ))[l.length]? = some none := by
  have h := List.getElem?_concat_length (l.map some) (none : Option ℚ)
  rw [List.length_map] at h
  exact h

theorem dropLast_range (n : ℕ) : (List.range (n + 1)).dropLast = List.range n := by
  rw [List.range_succ, List.dropLast_concat]

theorem dictGet_range (n : ℕ) (mk : ℕ → Var) (i : ℕ) :
    dictGet (List.range n) mk i = if i < n then some (mk i) else none := by
  simp [dictGet, List.mem_range]

theorem calc_cost_some_price (en : Option ℚ) (p st : ℚ) :
    calc_cost en (some p) st = .ok (en.map fun n => n * p / st) := by
  cases en <;> rfl

theorem calc_cost_none_energy (pr : Option ℚ) (st : ℚ) :
    calc_cost none pr st = .ok none := rfl

/-- Reduction of one loop iteration at a non-terminal index. -/
theorem buildRow_lt (m : Model) (sol : Var → Option ℚ) (i : ℕ) (p q : ℚ)
    (hi : i < m.N)
    (hp : m.pricesExt[i]? = some (some p))
    (hf : m.forecastsExt[i]? = some (some q))
    (hnd : (rowKeys m.timestep).Nodup) :
    buildRow m (setup_vars m.idx) sol i = .ok
      [("Import [MW]", sol (.imp i)),
       ("Export [MW]", sol (.exp i)),
       ("Gross [MW]", calc_gross (sol (.imp i)) (sol (.exp i))),
       ("Net [MW]", calc_net (sol (.imp i)) (sol (.exp i)) (sol (.loss i))),
       ("Losses [MW]", sol (.loss i)),
       ("Charge [MWh]", sol (.chg i)),
       ("Prices [$/MWh]", some p),
       ("Forecast [$/MWh]", some q),
       ("Actual [$/" ++ m.timestep ++ "]",
         (calc_net (sol (.imp i)) (sol (.exp i)) (sol (.loss i))).map
           fun n => n * p / m.step),
       ("Forecast [$/" ++ m.timestep ++ "]",
         (calc_net (sol (.imp i)) (sol (.exp i)) (sol (.loss i))).map
           fun n => n * q / m.step)] := by
  unfold buildRow
  rw [hp, hf]
  have hv : setup_vars m.idx =
      { imports := List.range m.N, exports := List.range m.N,
        charges := List.range (m.N + 1), losses := List.range (m.N + 1) } := by
    rw [setup_vars, Model.idx, dropLast_range]
  rw [hv]
  dsimp only
  rw [dictGet_range, dictGet_range, dictGet_range, dictGet_range,
    if_pos hi, if_pos hi, if_pos (by omega : i < m.N + 1),
    if_pos (by omega : i < m.N + 1)]
  dsimp only [get_value_or_nan]
  rw [calc_cost_some_price, calc_cost_some_price]
  dsimp only
  rw [odFromList_of_nodup _ (by simpa [rowKeys] using hnd)]

/-- Reduction of the loop iteration at the terminal index: imports and
exports have no variable there, losses and charges do. -/
theorem buildRow_terminal (m : Model) (sol : Var → Option ℚ) (pN fN : Option ℚ)
    (hp : m.pricesExt[m.N]? = some pN)
    (hf : m.forecastsExt[m.N]? = some fN)
    (hnd : (rowKeys m.timestep).Nodup) :
    buildRow m (setup_vars m.idx) sol m.N = .ok
      [("Import [MW]", none),
       ("Export [MW]", none),
       ("Gross [MW]", none),
       ("Net [MW]", none),
       ("Losses [MW]", sol (.loss m.N)),
       ("Charge [MWh]", sol (.chg m.N)),
       ("Prices [$/MWh]", pN),
       ("Forecast [$/MWh]", fN),
       ("Actual [$/" ++ m.timestep ++ "]", none),
       ("Forecast [$/" ++ m.timestep ++ "]", none)] := by
  unfold buildRow
  rw [hp, hf]
  have hv : setup_vars m.idx =
      { imports := List.range m.N, exports := List.range m.N,
        charges := List.range (m.N + 1), losses := List.range (m.N + 1) } := by
    rw [setup_vars, Model.idx, dropLast_range]
  rw [hv]
  dsimp only
  rw [dictGet_range, dictGet_range, dictGet_range, dictGet_range,
    if_neg (by omega : ¬ m.N < m.N), if_neg (by omega : ¬ m.N < m.N),
    if_pos (by omega : m.N < m.N + 1), if_pos (by omega : m.N < m.N + 1)]
  dsimp only [get_value_or_nan, calc_net, calc_cost, calc_gross]
  rw [odFromList_of_nodup _ (by simpa [rowKeys] using hnd)]

/-- The output loop succeeds and yields one row per index, in order, as soon
as every single row builds. -/
theorem outputsLoop_ok (m : Model) (vd : VarDicts) (sol : Var → Option ℚ)
    (l : List ℕ) (h : ∀ i ∈ l, ∃ r, buildRow m vd sol i = .ok r) :
    ∃ rows : List Row, outputsLoop m vd sol l = .ok rows ∧
      rows.length = l.length ∧
      ∀ (k : ℕ) (i : ℕ), l[k]? = some i →
        ∃ r, buildRow m vd sol i = .ok r ∧ rows[k]? = some r := by
  induction l with
  | nil => exact ⟨[], rfl, rfl, by simp⟩
  | cons a t ih =>
    rcases h a (List.mem_cons_self a t) with ⟨r, hr⟩
    rcases ih (fun i hi => h i (List.mem_cons_of_mem a hi)) with
      ⟨rows, hrows, hlen, hget⟩
    refine ⟨r :: rows, ?_, by simpa using hlen, ?_⟩
    · unfold outputsLoop
      rw [hr, hrows]
    · intro k i hk
      cases k with
      | zero =>
        simp only [List.getElem?_cons_zero, Option.some.injEq] at hk
        exact ⟨r, hk ▸ hr, List.getElem?_cons_zero⟩
      | succ k' =>
        simp only [List.getElem?_cons_succ] at hk ⊢
        exact hget k' i hk

/-- Field-level consequences of a successful `optimize` call. -/
theorem optimize_fields (b : Battery) (prices : List ℚ) (fc : Option (List ℚ))
    (ic : ℚ) (ts : String) (m : Model) (h : optimize b prices fc ic ts = .ok m) :
    m.N = prices.length ∧ m.power = b.power ∧ m.capacity = b.capacity ∧
      m.efficiency = b.efficiency ∧ m.initial_charge = ic ∧ m.timestep = ts ∧
      steps ts = some m.step ∧ m.pricesExt = prices.map some ++ [none] ∧
      m.forecastsExt.length = m.N + 1 ∧
      (fc = none → m.forecastsExt = prices.map some ++ [none]) ∧
      (∀ l, fc = some l → m.forecastsExt = l.map some) := by
  rcases (optimize_ok_iff b prices fc ic ts m).mp h with ⟨s, hs, hlen, -, -, hm⟩
  subst hm
  cases fc with
  | none =>
    refine ⟨rfl, rfl, rfl, rfl, rfl, rfl, hs, rfl, ?_, fun _ => rfl, ?_⟩
    · simp
    · intro l hl; cases hl
  | some l =>
    refine ⟨rfl, rfl, rfl, rfl, rfl, rfl, hs, rfl, ?_, ?_, ?_⟩
    · simpa using hlen
    · intro hl; cases hl
    · intro l' hl'; cases hl'; rfl

/-- The row-key list of a model built by `optimize` has no duplicate labels. -/
theorem optimize_rowKeys_nodup (b : Battery) (prices : List ℚ)
    (fc : Option (List ℚ)) (ic : ℚ) (ts : String) (m : Model)
    (h : optimize b prices fc ic ts = .ok m) : (rowKeys m.timestep).Nodup := by
  obtain ⟨-, -, -, -, -, hts, hs, -⟩ := optimize_fields b prices fc ic ts m h
  rw [hts]
  exact rowKeys_nodup ts (steps_cases ts m.step (hts ▸ hs))

/-- Price lookups of a model built by `optimize`. -/
theorem optimize_price_lookup (b : Battery) (prices : List ℚ)
    (fc : Option (List ℚ)) (ic : ℚ) (ts : String) (m : Model)
    (h : optimize b prices fc ic ts = .ok m) :
    (∀ k < m.N, m.pricesExt[k]? = some (some (prices.getD k 0))) ∧
      m.pricesExt[m.N]? = some none := by
  obtain ⟨hN, -, -, -, -, -, -, hpe, -⟩ := optimize_fields b prices fc ic ts m h
  constructor
  · intro k hk
    rw [hpe]
    exact getElem?_ext_lt (by omega)
  · rw [hpe, hN]
    exact getElem?_ext_len prices

/-- Forecast lookups of a model built by `optimize`: defined at every row
index, and holding a real number below the terminal index. -/
theorem optimize_forecast_lookup (b : Battery) (prices : List ℚ)
    (fc : Option (List ℚ)) (ic : ℚ) (ts : String) (m : Model)
    (h : optimize b prices fc ic ts = .ok m) :
    ∀ k ≤ m.N, ∃ w, m.forecastsExt[k]? = some w ∧
      (k < m.N → ∃ q, w = some q) := by
  obtain ⟨hN, -, -, -, -, -, -, -, hflen, hfn, hfs⟩ :=
    optimize_fields b prices fc ic ts m h
  intro k hk
  cases fc with
  | none =>
    rw [hfn rfl]
    rcases Nat.lt_or_ge k m.N with hlt | hge
    · exact ⟨some (prices.getD k 0), getElem?_ext_lt (by omega), fun _ =>
        ⟨prices.getD k 0, rfl⟩⟩
    · have hkN : k = m.N := by omega
      subst hkN
      rw [hN]
      exact ⟨none, getElem?_ext_len prices, fun hlt => absurd hlt (by omega)⟩
  | some l =>
    rw [hfs l rfl]
    have hkl : k < l.length := by
      have := hflen
      rw [hfs l rfl, List.length_map] at this
      omega
    exact ⟨some (l.getD k 0), getElem?_map_some_lt hkl, fun _ =>
      ⟨l.getD k 0, rfl⟩⟩

/-- Under a model built by `optimize`, every row of the report builds and
the report is the ordered list of them. -/
theorem generate_outputs_full (b : Battery) (prices : List ℚ)
    (fc : Option (List ℚ)) (ic : ℚ) (ts : String) (m : Model)
    (h : optimize b prices fc ic ts = .ok m) (sol : Var → Option ℚ) :
    ∃ rows : List Row, generate_outputs m sol = .ok rows ∧
      rows.length = m.N + 1 ∧
      ∀ k ≤ m.N, ∃ r, buildRow m (setup_vars m.idx) sol k = .ok r ∧
        rows[k]? = some r := by
  have hnd := optimize_rowKeys_nodup b prices fc ic ts m h
  have hpl := optimize_price_lookup b prices fc ic ts m h
  have hfl := optimize_forecast_lookup b prices fc ic ts m h
  have hall : ∀ i ∈ m.idx, ∃ r, buildRow m (setup_vars m.idx) sol i = .ok r := by
    intro i hi
    rw [Model.idx, List.mem_range] at hi
    rcases Nat.lt_or_ge i m.N with hlt | hge
    · rcases hfl i (by omega) with ⟨w, hw, hwq⟩
      rcases hwq hlt with ⟨q, rfl⟩
      exact ⟨_, buildRow_lt m sol i (prices.getD i 0) q hlt (hpl.1 i hlt) hw hnd⟩
    · have hiN : i = m.N := by omega
      subst hiN
      rcases hfl m.N le_rfl with ⟨w, hw, -⟩
      exact ⟨_, buildRow_terminal m sol none w hpl.2 hw hnd⟩
  rcases outputsLoop_ok m (setup_vars m.idx) sol m.idx hall with
    ⟨rows, hrows, hlen, hget⟩
  refine ⟨rows, hrows, ?_, ?_⟩
  · rw [hlen, Model.idx, List.length_range]
  · intro k hk
    exact hget k k (by rw [Model.idx]; exact List.getElem?_range (by omega))

theorem list_map_sum_add (l : List ℕ) (f g : ℕ → ℚ) :
    (l.map f).sum + (l.map g).sum = (l.map fun i => f i + g i).sum := by
  induction l with
  | nil => simp
  | cons a t ih =>
    simp only [List.map_cons, List.sum_cons, ← ih]
    ring

/-- A caller-supplied forecast list whose length differs from the extended
price list makes `optimize` fail its length assertion. -/
theorem optimize_len_mismatch (b : Battery) (prices l : List ℚ) (ic : ℚ)
    (ts : String) (s : ℚ) (hs : steps ts = some s)
    (hlen : l.length ≠ prices.length + 1) :
    optimize b prices (some l) ic ts = .error .assertionError := by
  unfold optimize
  rw [hs]
  dsimp only
  rw [if_neg (by simpa using hlen)]

/-- The terminal loss variable never occurs in the problem. -/
theorem loss_terminal_not_mem (m : Model)
    (hc : ∀ i < m.N, m.forecastsExt.getD i none = some (fcoef m i)) :
    Var.loss m.N ∉ m.problemVars := by
  intro hmem
  rcases mem_problemVars_elim m hc _ hmem with ⟨i, hi, he | he | he⟩ | ⟨i, hi, he⟩
  · exact Var.noConfusion he
  · exact Var.noConfusion he
  · have : m.N = i := Var.loss.inj he
    omega
  · exact Var.noConfusion he

/-! ### Concrete fixtures used by witnesses and counterexamples -/

/-- The battery from the module's demonstration block. -/
def bat : Battery := Battery.init 2 4 (9 / 10)

/-- Model built for a one-step horizon with zero initial charge. -/
def mdl0 : Model :=
  { N := 1, power := 2, capacity := 4, efficiency := 9 / 10, step := 1,
    initial_charge := 0, pricesExt := [some 50, none],
    forecastsExt := [some 50, none], timestep := "1hr" }

/-- Model built for a two-step horizon with initial charge 1. -/
def mdl1 : Model :=
  { N := 2, power := 2, capacity := 4, efficiency := 9 / 10, step := 1,
    initial_charge := 1, pricesExt := [some 50, some 10, none],
    forecastsExt := [some 50, some 10, none], timestep := "1hr" }

/-- Model built for a one-step horizon starting completely full. -/
def mdl3 : Model :=
  { N := 1, power := 2, capacity := 4, efficiency := 9 / 10, step := 1,
    initial_charge := 4, pricesExt := [some 50, none],
    forecastsExt := [some 50, none], timestep := "1hr" }

/-- The all-zero assignment. -/
def solZ : Var → ℚ := fun _ => 0

/-- An assignment that charges at full power from a full battery. -/
def sol3 : Var → ℚ
  | .imp 0 => 2
  | .chg 0 => 4
  | .chg 1 => 6
  | _ => 0

theorem sol3_imp0 : sol3 (Var.imp 0) = 2 := rfl

theorem sol3_exp0 : sol3 (Var.exp 0) = 0 := rfl

theorem sol3_loss0 : sol3 (Var.loss 0) = 0 := rfl

theorem sol3_chg0 : sol3 (Var.chg 0) = 4 := rfl

theorem sol3_chg1 : sol3 (Var.chg 1) = 6 := rfl

theorem optimize_mdl0 : optimize bat [50] none 0 "1hr" = .ok mdl0 :=
  (optimize_ok_iff bat [50] none 0 "1hr" mdl0).mpr
    ⟨1, steps_values.2.2.2, by simp, by norm_num [bat, Battery.init],
      by norm_num, rfl⟩

theorem optimize_mdl1 : optimize bat [50, 10] none 1 "1hr" = .ok mdl1 :=
  (optimize_ok_iff bat [50, 10] none 1 "1hr" mdl1).mpr
    ⟨1, steps_values.2.2.2, by simp, by norm_num [bat, Battery.init],
      by norm_num, rfl⟩

theorem optimize_mdl3 : optimize bat [50] none 4 "1hr" = .ok mdl3 :=
  (optimize_ok_iff bat [50] none 4 "1hr" mdl3).mpr
    ⟨1, steps_values.2.2.2, by simp, by norm_num [bat, Battery.init],
      by norm_num, rfl⟩

theorem feasible_mdl0 : Feasible mdl0 solZ := by
  rw [feasible_iff mdl0 (optimize_coefs bat [50] none 0 "1hr" mdl0 optimize_mdl0)
    solZ]
  refine ⟨?_, ?_, ?_, ?_, ?_, ?_, ?_, ?_⟩ <;>
    first
      | (intro i hi; norm_num [solZ, mdl0])
      | norm_num [solZ, mdl0]

theorem feasible_mdl3 : Feasible mdl3 sol3 := by
  rw [feasible_iff mdl3 (optimize_coefs bat [50] none 4 "1hr" mdl3 optimize_mdl3)
    sol3]
  have hN : mdl3.N = 1 := rfl
  rw [hN]
  refine ⟨?_, ?_, ?_, ?_, ?_, ?_, ?_, ?_⟩
  · intro i hi
    have h0 : i = 0 := by omega
    subst h0
    norm_num [sol3_imp0, mdl3]
  · intro i hi
    have h0 : i = 0 := by omega
    subst h0
    norm_num [sol3_exp0, mdl3]
  · intro i hi
    interval_cases i
    · norm_num [sol3_chg0]
    · norm_num [sol3_chg1]
  · intro i hi
    have h0 : i = 0 := by omega
    subst h0
    norm_num [sol3_loss0]
  · norm_num [sol3_chg0, mdl3]
  · intro i hi
    have h0 : i = 0 := by omega
    subst h0
    norm_num [sol3_chg1, sol3_chg0, sol3_imp0, sol3_exp0, sol3_loss0, mdl3]
  · intro i hi
    have h0 : i = 0 := by omega
    subst h0
    norm_num [sol3_chg0, mdl3]
  · intro i hi
    have h0 : i = 0 := by omega
    subst h0
    norm_num [sol3_loss0, sol3_exp0, mdl3]

/-- A feasible assignment for `mdl1` holding the charge at 1 with no flows. -/
def sol1 : Var → ℚ
  | .chg _ => 1
  | _ => 0

theorem sol1_chg (i : ℕ) : sol1 (Var.chg i) = 1 := rfl

theorem sol1_imp (i : ℕ) : sol1 (Var.imp i) = 0 := rfl

theorem sol1_exp (i : ℕ) : sol1 (Var.exp i) = 0 := rfl

theorem sol1_loss (i : ℕ) : sol1 (Var.loss i) = 0 := rfl

theorem feasible_mdl1 : Feasible mdl1 sol1 := by
  rw [feasible_iff mdl1
    (optimize_coefs bat [50, 10] none 1 "1hr" mdl1 optimize_mdl1) sol1]
  refine ⟨?_, ?_, ?_, ?_, ?_, ?_, ?_, ?_⟩ <;>
    first
      | (intro i hi; norm_num [sol1_chg, sol1_imp, sol1_exp, sol1_loss, mdl1])
      | norm_num [sol1_chg, mdl1]

/-! ### Claim theorems -/

/-- Claim C3, counterexample: for the one-step model built with
`initial_charge = 4` on battery `(2, 4, 0.9)`, the assignment that imports
at full power is feasible, yet the terminal charge is 6, above capacity 4:
the claim's bound `charges[N] ≤ capacity` fails on the built model. -/
theorem claim_C3_counterexample :
    optimize bat [50] none 4 "1hr" = .ok mdl3 ∧ Feasible mdl3 sol3 ∧
      mdl3.N = ([50] : List ℚ).length ∧
      ¬ sol3 (Var.chg mdl3.N) ≤ mdl3.capacity := by
  refine ⟨optimize_mdl3, feasible_mdl3, rfl, ?_⟩
  show ¬ sol3 (Var.chg 1) ≤ mdl3.capacity
  norm_num [sol3_chg1, mdl3]

/-- Claim C3 (amended): every feasible solution of the built model
satisfies `0 ≤ charges[i] ≤ capacity` for `i` in `0..N-1` (the upper bound
via the explicit constraint, not a variable bound, and not imposed at the
terminal index), `0 ≤ charges[N]`, and `0 ≤ imports[i], exports[i] ≤ power`
for `i` in `0..N-1`. -/
theorem claim_C3_bounds (b : Battery) (prices : List ℚ) (fc : Option (List ℚ))
    (ic : ℚ) (ts : String) (m : Model) (h : optimize b prices fc ic ts = .ok m)
    (sol : Var → ℚ) (hf : Feasible m sol) :
    (∀ i < prices.length, 0 ≤ sol (.chg i) ∧ sol (.chg i) ≤ b.capacity) ∧
      (∀ i ≤ prices.length, 0 ≤ sol (.chg i)) ∧
      (∀ i < prices.length, 0 ≤ sol (.imp i) ∧ sol (.imp i) ≤ b.power) ∧
      (∀ i < prices.length, 0 ≤ sol (.exp i) ∧ sol (.exp i) ≤ b.power) ∧
      varUpBound b.power (Var.chg 0) = none ∧
      (∀ i < prices.length,
        Constr.leC (.var (.chg i)) (.const b.capacity) ∈ m.constraints) := by
  obtain ⟨hN, hp, hcap, -, -, -, -, -⟩ := optimize_fields b prices fc ic ts m h
  obtain ⟨h1, h2, h3, h4, -, -, h7, -⟩ :=
    (feasible_iff m (optimize_coefs b prices fc ic ts m h) sol).mp hf
  refine ⟨?_, ?_, ?_, ?_, rfl, ?_⟩
  · intro i hi
    exact ⟨h3 i (by omega), hcap ▸ h7 i (by omega)⟩
  · intro i hi
    exact h3 i (by omega)
  · intro i hi
    exact hp ▸ h1 i (by omega)
  · intro i hi
    exact hp ▸ h2 i (by omega)
  · intro i hi
    have := (mem_constraints_iff m _).mpr
      (Or.inr ⟨i, by omega, Or.inr (Or.inl rfl)⟩)
    rwa [hcap] at this

theorem claim_C3_bounds_witness :
    (0 ≤ solZ (Var.chg 0) ∧ solZ (Var.chg 0) ≤ bat.capacity) ∧
      varUpBound bat.power (Var.chg 0) = none :=
  ⟨(claim_C3_bounds bat [50] none 0 "1hr" mdl0 optimize_mdl0 solZ
      feasible_mdl0).1 0 (by norm_num),
   (claim_C3_bounds bat [50] none 0 "1hr" mdl0 optimize_mdl0 solZ
      feasible_mdl0).2.2.2.2.1⟩

/-- Claim C4 (confirmed): the built model contains the constraint
`charges[0] == initial_charge` and, for each `i` in `0..N-1`, the balance
constraint `charges[i+1] == charges[i] + (imports[i]-exports[i]-losses[i]) / step`; the step factor is 12, 2, 1, 1 for the four timestep keys;
hence every feasible solution satisfies the charge closed form. -/
theorem claim_C4_balance (b : Battery) (prices : List ℚ) (fc : Option (List ℚ))
    (ic : ℚ) (ts : String) (m : Model) (h : optimize b prices fc ic ts = .ok m) :
    Constr.eqC (.var (.chg 0)) (.const ic) ∈ m.constraints ∧
      (∀ i < prices.length,
        Constr.eqC (.var (.chg (i + 1)))
          (.add (.var (.chg i))
            (.div (.sub (.sub (.var (.imp i)) (.var (.exp i))) (.var (.loss i)))
              m.step)) ∈ m.constraints) ∧
      (ts = "5min" → m.step = 12) ∧ (ts = "30min" → m.step = 2) ∧
      (ts = "60min" → m.step = 1) ∧ (ts = "1hr" → m.step = 1) ∧
      ∀ sol : Var → ℚ, Feasible m sol → ∀ i, i ≤ prices.length →
        sol (.chg i) = ic + ((List.range i).map fun j =>
          (sol (.imp j) - sol (.exp j) - sol (.loss j)) / m.step).sum := by
  obtain ⟨hN, -, -, -, hic, -, hsts, -⟩ := optimize_fields b prices fc ic ts m h
  refine ⟨?_, ?_, ?_, ?_, ?_, ?_, ?_⟩
  · rw [← hic]
    exact (mem_constraints_iff m _).mpr (Or.inl rfl)
  · intro i hi
    exact (mem_constraints_iff m _).mpr (Or.inr ⟨i, by omega, Or.inl rfl⟩)
  · intro hts
    subst hts
    rw [steps_values.1] at hsts
    exact (Option.some.inj hsts).symm
  · intro hts
    subst hts
    rw [steps_values.2.1] at hsts
    exact (Option.some.inj hsts).symm
  · intro hts
    subst hts
    rw [steps_values.2.2.1] at hsts
    exact (Option.some.inj hsts).symm
  · intro hts
    subst hts
    rw [steps_values.2.2.2] at hsts
    exact (Option.some.inj hsts).symm
  · intro sol hf i
    induction i with
    | zero =>
      intro _
      simp [feasible_initial m sol hf, hic]
    | succ j ihj =>
      intro hile
      have hj : j < m.N := by omega
      rw [feasible_balance m sol hf j hj, ihj (by omega), List.range_succ,
        List.map_append, List.sum_append]
      simp
      ring

theorem claim_C4_balance_witness :
    Constr.eqC (.var (.chg 0)) (.const 1) ∈ mdl1.constraints ∧
      sol1 (Var.chg 2) = 1 + ((List.range 2).map fun j =>
        (sol1 (.imp j) - sol1 (.exp j) - sol1 (.loss j)) / mdl1.step).sum :=
  ⟨(claim_C4_balance bat [50, 10] none 1 "1hr" mdl1 optimize_mdl1).1,
   (claim_C4_balance bat [50, 10] none 1 "1hr" mdl1 optimize_mdl1).2.2.2.2.2.2
     sol1 feasible_mdl1 2 (by norm_num)⟩

/-- Claim C6 (confirmed): the loss variables occurring in the problem are
exactly those at indices `0..N-1`; for each such index the builder adds the
proportionality constraint, and every feasible solution satisfies
`losses[i] == exports[i] * (1 - efficiency)` there. -/
theorem claim_C6_loss_proportional (b : Battery) (prices : List ℚ)
    (fc : Option (List ℚ)) (ic : ℚ) (ts : String) (m : Model)
    (h : optimize b prices fc ic ts = .ok m) :
    (∀ i, Var.loss i ∈ m.problemVars → i < prices.length) ∧
      (∀ i < prices.length,
        Constr.eqC (.var (.loss i)) (.mul (1 - b.efficiency) (.var (.exp i)))
          ∈ m.constraints) ∧
      ∀ sol : Var → ℚ, Feasible m sol → ∀ i, Var.loss i ∈ m.problemVars →
        sol (.loss i) = sol (.exp i) * (1 - b.efficiency) := by
  obtain ⟨hN, -, -, heff, -, -, -, -⟩ := optimize_fields b prices fc ic ts m h
  have hc := optimize_coefs b prices fc ic ts m h
  have hlt : ∀ i, Var.loss i ∈ m.problemVars → i < m.N := by
    intro i hmem
    rcases mem_problemVars_elim m hc _ hmem with ⟨j, hj, he | he | he⟩ | ⟨j, hj, he⟩
    · exact Var.noConfusion he
    · exact Var.noConfusion he
    · have : i = j := Var.loss.inj he
      omega
    · exact Var.noConfusion he
  refine ⟨fun i hi => hN ▸ hlt i hi, ?_, ?_⟩
  · intro i hi
    have := (mem_constraints_iff m _).mpr
      (Or.inr ⟨i, by omega, Or.inr (Or.inr (Or.inr rfl))⟩)
    rwa [heff] at this
  · intro sol hf i hmem
    rw [← heff]
    exact feasible_loss m sol hf i (hlt i hmem)

theorem claim_C6_loss_proportional_witness :
    solZ (Var.loss 0) = solZ (Var.exp 0) * (1 - bat.efficiency) :=
  (claim_C6_loss_proportional bat [50] none 0 "1hr" mdl0 optimize_mdl0).2.2
    solZ feasible_mdl0 0 (loss_mem_problemVars mdl0 0 (by decide))

/-- Claim C8 (confirmed): an initial charge outside `[0, capacity]` or an
unrecognised timestep key makes `optimize` raise before any solve attempt,
so no model (and hence no result row) is ever produced. -/
theorem claim_C8_invalid_params (b : Battery) (prices : List ℚ)
    (fc : Option (List ℚ)) (ic : ℚ) (ts : String)
    (h : ic < 0 ∨ b.capacity < ic ∨ steps ts = none) :
    (∃ e, optimize b prices fc ic ts = .error e) ∧
      ∀ m : Model, optimize b prices fc ic ts ≠ .ok m := by
  have he : ∃ e, optimize b prices fc ic ts = .error e := by
    unfold optimize
    cases hs : steps ts with
    | none => exact ⟨.keyError, rfl⟩
    | some s =>
      dsimp only
      split_ifs with h1 h2 h3
      · rcases h with h | h | h
        · exact absurd h3 (not_le.mpr h)
        · exact absurd h2 (not_le.mpr h)
        · rw [hs] at h
          exact Option.noConfusion h
      · exact ⟨.assertionError, rfl⟩
      · exact ⟨.assertionError, rfl⟩
      · exact ⟨.assertionError, rfl⟩
  rcases he with ⟨e, he⟩
  exact ⟨⟨e, he⟩, fun m hm => by rw [hm] at he; exact Except.noConfusion he⟩

theorem claim_C8_invalid_params_witness :
    ((∃ e, optimize bat [50] none 5 "1hr" = .error e) ∧
      ∀ m : Model, optimize bat [50] none 5 "1hr" ≠ .ok m) ∧
      ((∃ e, optimize bat [50] none 0 "2hr" = .error e) ∧
        ∀ m : Model, optimize bat [50] none 0 "2hr" ≠ .ok m) :=
  ⟨claim_C8_invalid_params bat [50] none 5 "1hr"
      (Or.inr (Or.inl (by norm_num [bat, Battery.init]))),
   claim_C8_invalid_params bat [50] none 0 "2hr"
      (Or.inr (Or.inr (by decide)))⟩

/-- Claim C10 (confirmed): constructing a battery never validates its
parameters, and `optimize` succeeds for any battery values (positivity and
efficiency bounds included) as long as the call-level checks on the
timestep and the initial charge pass. -/
theorem claim_C10_no_validation (p c e ic : ℚ) (prices : List ℚ) (ts : String)
    (s : ℚ) (hs : steps ts = some s) (h0 : 0 ≤ ic) (hcap : ic ≤ c) :
    Battery.init p c e = { power := p, capacity := c, efficiency := e } ∧
      ∃ m, optimize (Battery.init p c e) prices none ic ts = .ok m ∧
        m.power = p ∧ m.capacity = c ∧ m.efficiency = e := by
  refine ⟨rfl, ?_⟩
  exact ⟨_, (optimize_ok_iff (Battery.init p c e) prices none ic ts _).mpr
    ⟨s, hs, by simp, hcap, h0, rfl⟩, rfl, rfl, rfl⟩

theorem claim_C10_no_validation_witness :
    Battery.init (-1) 0 (3 / 2) =
        { power := -1, capacity := 0, efficiency := 3 / 2 } ∧
      ∃ m, optimize (Battery.init (-1) 0 (3 / 2)) [5] none 0 "1hr" = .ok m ∧
        m.power = -1 ∧ m.capacity = 0 ∧ m.efficiency = 3 / 2 :=
  claim_C10_no_validation (-1) 0 (3 / 2) 0 [5] "1hr" 1 steps_values.2.2.2
    le_rfl le_rfl

/-- Claim C2, counterexample: a caller-supplied forecast list of length N
(the prices length, here 1) raises the length assertion, because the check
compares against the price list extended with the sentinel (length N+1). -/
theorem claim_C2_counterexample :
    optimize bat [50] (some [50]) 0 "1hr" = .error .assertionError :=
  optimize_len_mismatch bat [50] [50] 0 "1hr" 1 steps_values.2.2.2 (by norm_num)

/-- Claim C2 (amended): with a recognised timestep, a caller-supplied
forecast list passes the length check iff its length is N+1 (the extended
price-list length); with length N+1 and a valid initial charge the call
returns a model, and with any other length it raises before any solve. -/
theorem claim_C2_forecast_length (b : Battery) (prices l : List ℚ) (ic : ℚ)
    (ts : String) (s : ℚ) (hs : steps ts = some s) :
    (l.length = prices.length + 1 → 0 ≤ ic → ic ≤ b.capacity →
      ∃ m, optimize b prices (some l) ic ts = .ok m) ∧
      (l.length ≠ prices.length + 1 →
        optimize b prices (some l) ic ts = .error .assertionError) := by
  constructor
  · intro hlen h0 hcap
    exact ⟨_, (optimize_ok_iff b prices (some l) ic ts _).mpr
      ⟨s, hs, by simpa using hlen, hcap, h0, rfl⟩⟩
  · intro hlen
    exact optimize_len_mismatch b prices l ic ts s hs hlen

theorem claim_C2_forecast_length_witness :
    (∃ m, optimize bat [50] (some [50, 60]) 0 "1hr" = .ok m) ∧
      optimize bat [50] (some [50, 60, 70]) 0 "1hr" = .error .assertionError :=
  ⟨(claim_C2_forecast_length bat [50] [50, 60] 0 "1hr" 1 steps_values.2.2.2).1
      (by norm_num) (by norm_num) (by norm_num [bat, Battery.init]),
   (claim_C2_forecast_length bat [50] [50, 60, 70] 0 "1hr" 1
      steps_values.2.2.2).2 (by norm_num)⟩

/-- Value of the built objective under any assignment: the sum over
timesteps of the signed forecast-weighted flows. -/
theorem objective_eval (m : Model) (sol : Var → ℚ) :
    evalE sol (lpSum
      (((List.range m.N).map fun i => LinExpr.mul (fcoef m i) (.var (.imp i))) ++
       ((List.range m.N).map fun i =>
          LinExpr.mul (-(fcoef m i)) (.var (.exp i))))) =
    ((List.range m.N).map fun i =>
      sol (.imp i) * fcoef m i - sol (.exp i) * fcoef m i).sum := by
  rw [evalE_lpSum, List.map_append, List.sum_append, List.map_map,
    List.map_map, list_map_sum_add]
  refine congrArg List.sum (List.map_congr_left fun i _ => ?_)
  simp only [Function.comp, evalE]
  ring

/-- Claim C5 (confirmed): the objective of the built model is the sum over
`i` in `0..N-1` of `imports[i]*forecasts[i] - exports[i]*forecasts[i]`, and
when the forecasts argument is absent it is evaluated against the actual
prices. -/
theorem claim_C5_objective (b : Battery) (prices : List ℚ)
    (fc : Option (List ℚ)) (ic : ℚ) (ts : String) (m : Model)
    (h : optimize b prices fc ic ts = .ok m) :
    ∃ e, m.objective = some e ∧
      (∀ l, fc = some l → ∀ sol : Var → ℚ,
        evalE sol e = ((List.range prices.length).map fun i =>
          sol (.imp i) * l.getD i 0 - sol (.exp i) * l.getD i 0).sum) ∧
      (fc = none → ∀ sol : Var → ℚ,
        evalE sol e = ((List.range prices.length).map fun i =>
          sol (.imp i) * prices.getD i 0 - sol (.exp i) * prices.getD i 0).sum) := by
  have hc := optimize_coefs b prices fc ic ts m h
  obtain ⟨hN, -, -, -, -, -, -, -, hflen, hfn, hfs⟩ :=
    optimize_fields b prices fc ic ts m h
  refine ⟨_, objective_eq m hc, ?_, ?_⟩
  · intro l hl sol
    rw [← hN, objective_eval m sol]
    refine congrArg List.sum (List.map_congr_left fun i hi => ?_)
    have hiN : i < m.N := List.mem_range.mp hi
    have hlen : l.length = m.N + 1 := by
      have := hflen
      rw [hfs l hl, List.length_map] at this
      exact this
    have hfc : fcoef m i = l.getD i 0 := by
      rw [fcoef, hfs l hl, getD_map_some_lt (by omega)]
      rfl
    rw [hfc]
  · intro hl sol
    rw [← hN, objective_eval m sol]
    refine congrArg List.sum (List.map_congr_left fun i hi => ?_)
    have hiN : i < m.N := List.mem_range.mp hi
    have hfc : fcoef m i = prices.getD i 0 := by
      rw [fcoef, hfn hl, getD_ext_lt (by omega)]
      rfl
    rw [hfc]

theorem claim_C5_objective_witness :
    ∃ e, mdl0.objective = some e ∧
      (∀ l, (none : Option (List ℚ)) = some l → ∀ sol : Var → ℚ,
        evalE sol e = ((List.range ([50] : List ℚ).length).map fun i =>
          sol (.imp i) * l.getD i 0 - sol (.exp i) * l.getD i 0).sum) ∧
      ((none : Option (List ℚ)) = none → ∀ sol : Var → ℚ,
        evalE sol e = ((List.range ([50] : List ℚ).length).map fun i =>
          sol (.imp i) * ([50] : List ℚ).getD i 0 -
            sol (.exp i) * ([50] : List ℚ).getD i 0).sum) :=
  claim_C5_objective bat [50] none 0 "1hr" mdl0 optimize_mdl0

/-- Every successfully built row carries the ten field labels in insertion
order. -/
theorem buildRow_keys (b : Battery) (prices : List ℚ) (fc : Option (List ℚ))
    (ic : ℚ) (ts : String) (m : Model) (h : optimize b prices fc ic ts = .ok m)
    (sol : Var → Option ℚ) (k : ℕ) (hk : k ≤ m.N) (r : Row)
    (hr : buildRow m (setup_vars m.idx) sol k = .ok r) :
    r.map Prod.fst = rowKeys m.timestep := by
  have hnd := optimize_rowKeys_nodup b prices fc ic ts m h
  have hpl := optimize_price_lookup b prices fc ic ts m h
  have hfl := optimize_forecast_lookup b prices fc ic ts m h
  rcases Nat.lt_or_ge k m.N with hlt | hge
  · rcases hfl k (by omega) with ⟨w, hw, hq⟩
    rcases hq hlt with ⟨q, rfl⟩
    have he := buildRow_lt m sol k (prices.getD k 0) q hlt (hpl.1 k hlt) hw hnd
    rw [he] at hr
    cases Except.ok.inj hr
    rfl
  · have hkN : k = m.N := by omega
    subst hkN
    rcases hfl m.N le_rfl with ⟨w, hw, -⟩
    have he := buildRow_terminal m sol none w hpl.2 hw hnd
    rw [he] at hr
    cases Except.ok.inj hr
    rfl

/-- Claim C9 (confirmed): for a price list of length N, the generated report
is an ordered sequence of exactly N+1 rows, the k-th being the row built
for index k, and every row iterates its fields in the fixed insertion
order `Import, Export, Gross, Net, Losses, Charge, Prices, Forecast,
Actual cost, Forecast cost`. -/
theorem claim_C9_row_order (b : Battery) (prices : List ℚ)
    (fc : Option (List ℚ)) (ic : ℚ) (ts : String) (m : Model)
    (h : optimize b prices fc ic ts = .ok m) (sol : Var → Option ℚ) :
    ∃ rows : List Row, generate_outputs m sol = .ok rows ∧
      rows.length = prices.length + 1 ∧
      (∀ k ≤ prices.length, ∃ r, buildRow m (setup_vars m.idx) sol k = .ok r ∧
        rows[k]? = some r) ∧
      ∀ r ∈ rows, r.map Prod.fst =
        ["Import [MW]", "Export [MW]", "Gross [MW]", "Net [MW]",
         "Losses [MW]", "Charge [MWh]", "Prices [$/MWh]", "Forecast [$/MWh]",
         "Actual [$/" ++ ts ++ "]", "Forecast [$/" ++ ts ++ "]"] := by
  obtain ⟨hN, -, -, -, -, hts, -⟩ := optimize_fields b prices fc ic ts m h
  rcases generate_outputs_full b prices fc ic ts m h sol with
    ⟨rows, hrows, hlen, hget⟩
  refine ⟨rows, hrows, by rw [hlen, hN], fun k hk => hget k (by omega), ?_⟩
  intro r hr
  obtain ⟨k, hkr⟩ := List.mem_iff_getElem?.mp hr
  have hkb : k < rows.length := by
    by_contra hc
    rw [List.getElem?_eq_none (by omega)] at hkr
    exact Option.noConfusion hkr
  rcases hget k (by omega) with ⟨r', hbr, hkr'⟩
  have hrr : r = r' := by
    rw [hkr] at hkr'
    exact Option.some.inj hkr'
  subst hrr
  have := buildRow_keys b prices fc ic ts m h sol k (by omega) r hbr
  rw [hts] at this
  exact this

theorem claim_C9_row_order_witness :
    ∃ rows : List Row, generate_outputs mdl0 (fun _ => none) = .ok rows ∧
      rows.length = ([50] : List ℚ).length + 1 ∧
      (∀ k ≤ ([50] : List ℚ).length,
        ∃ r, buildRow mdl0 (setup_vars mdl0.idx) (fun _ => none) k = .ok r ∧
          rows[k]? = some r) ∧
      ∀ r ∈ rows, r.map Prod.fst =
        ["Import [MW]", "Export [MW]", "Gross [MW]", "Net [MW]",
         "Losses [MW]", "Charge [MWh]", "Prices [$/MWh]", "Forecast [$/MWh]",
         "Actual [$/" ++ "1hr" ++ "]", "Forecast [$/" ++ "1hr" ++ "]"] :=
  claim_C9_row_order bat [50] none 0 "1hr" mdl0 optimize_mdl0 (fun _ => none)

/-- Claim C7 (confirmed): net, gross and the two costs propagate unknown
inputs as unknown values, never as exceptions or spurious numbers, and in
every generated row the derived fields are computed from the row's own
inputs by exactly these rules. -/
theorem claim_C7_unknown_propagation (b : Battery) (prices : List ℚ)
    (fc : Option (List ℚ)) (ic : ℚ) (ts : String) (m : Model)
    (h : optimize b prices fc ic ts = .ok m) (sol : Var → Option ℚ) :
    (∀ a c d : ℚ, calc_net (some a) (some c) (some d) = some (a - c - d)) ∧
      (∀ x y z : Option ℚ, x = none ∨ y = none ∨ z = none →
        calc_net x y z = none) ∧
      (∀ a c : ℚ, calc_gross (some a) (some c) = some (a - c)) ∧
      (∀ x y : Option ℚ, x = none ∨ y = none → calc_gross x y = none) ∧
      (∀ (en : Option ℚ) (p st : ℚ),
        calc_cost en (some p) st = .ok (en.map fun n => n * p / st)) ∧
      (∀ (pr : Option ℚ) (st : ℚ), calc_cost none pr st = .ok none) ∧
      ∃ rows : List Row, generate_outputs m sol = .ok rows ∧
        ∀ (k : ℕ) (r : Row), rows[k]? = some r →
          ∃ imp ex loss chg price forecast actual fcost,
            r = [("Import [MW]", imp), ("Export [MW]", ex),
                 ("Gross [MW]", calc_gross imp ex),
                 ("Net [MW]", calc_net imp ex loss),
                 ("Losses [MW]", loss), ("Charge [MWh]", chg),
                 ("Prices [$/MWh]", price), ("Forecast [$/MWh]", forecast),
                 ("Actual [$/" ++ m.timestep ++ "]", actual),
                 ("Forecast [$/" ++ m.timestep ++ "]", fcost)] ∧
              (calc_net imp ex loss = none → actual = none ∧ fcost = none) ∧
              (∀ n, calc_net imp ex loss = some n →
                ∃ p q, price = some p ∧ forecast = some q ∧
                  actual = some (n * p / m.step) ∧
                  fcost = some (n * q / m.step)) := by
  refine ⟨fun a c d => rfl, ?_, fun a c => rfl, ?_, calc_cost_some_price,
    fun pr st => rfl, ?_⟩
  · rintro x y z (rfl | rfl | rfl)
    · cases y <;> cases z <;> rfl
    · cases x <;> cases z <;> rfl
    · cases x <;> cases y <;> rfl
  · rintro x y (rfl | rfl)
    · cases y <;> rfl
    · cases x <;> rfl
  · have hnd := optimize_rowKeys_nodup b prices fc ic ts m h
    have hpl := optimize_price_lookup b prices fc ic ts m h
    have hfl := optimize_forecast_lookup b prices fc ic ts m h
    rcases generate_outputs_full b prices fc ic ts m h sol with
      ⟨rows, hrows, hlen, hget⟩
    refine ⟨rows, hrows, ?_⟩
    intro k r hkr
    have hkb : k < rows.length := by
      by_contra hc
      rw [List.getElem?_eq_none (by omega)] at hkr
      exact Option.noConfusion hkr
    have hkN : k ≤ m.N := by omega
    rcases hget k hkN with ⟨r', hbr, hkr'⟩
    have hrr : r = r' := by
      rw [hkr] at hkr'
      exact Option.some.inj hkr'
    subst hrr
    rcases Nat.lt_or_ge k m.N with hlt | hge
    · rcases hfl k hkN with ⟨w, hw, hq⟩
      rcases hq hlt with ⟨q, rfl⟩
      have he := buildRow_lt m sol k (prices.getD k 0) q hlt (hpl.1 k hlt)
        hw hnd
      rw [he] at hbr
      cases Except.ok.inj hbr
      refine ⟨sol (.imp k), sol (.exp k), sol (.loss k), sol (.chg k),
        some (prices.getD k 0), some q, _, _, rfl, ?_, ?_⟩
      · intro hnone
        rw [hnone]
        exact ⟨rfl, rfl⟩
      · intro n hn
        rw [hn]
        exact ⟨prices.getD k 0, q, rfl, rfl, rfl, rfl⟩
    · have hkN2 : k = m.N := by omega
      subst hkN2
      rcases hfl m.N le_rfl with ⟨w, hw, -⟩
      have he := buildRow_terminal m sol none w hpl.2 hw hnd
      rw [he] at hbr
      cases Except.ok.inj hbr
      have hnone : calc_net none none (sol (.loss m.N)) = none := by
        cases sol (.loss m.N) <;> rfl
      refine ⟨none, none, sol (.loss m.N), sol (.chg m.N), none, w, none, none,
        ?_, fun _ => ⟨rfl, rfl⟩, ?_⟩
      · rw [hnone]
        rfl
      · intro n hn
        rw [hnone] at hn
        exact Option.noConfusion hn

theorem claim_C7_unknown_propagation_witness :
    (calc_net (some 3) (some 1) (some 1) = some (3 - 1 - 1)) ∧
      calc_net none (some 1) (some 1) = none ∧
      calc_gross none (some 1) = none ∧
      ∃ rows : List Row, generate_outputs mdl0 (fun _ => none) = .ok rows := by
  have h := claim_C7_unknown_propagation bat [50] none 0 "1hr" mdl0
    optimize_mdl0 (fun _ => none)
  rcases h.2.2.2.2.2.2 with ⟨rows, hrows, -⟩
  exact ⟨h.1 3 1 1, h.2.1 none (some 1) (some 1) (Or.inl rfl),
    h.2.2.2.1 none (some 1) (Or.inl rfl), rows, hrows⟩

/-- Claim C1, counterexample: `setup_vars` creates loss variables over the
full index range, terminal index included, so a loss decision variable
does exist at index N (here N = 1) and the dictionary lookup finds it. -/
theorem claim_C1_counterexample :
    optimize bat [50] none 0 "1hr" = .ok mdl0 ∧
      mdl0.N ∈ (setup_vars mdl0.idx).losses ∧
      dictGet (setup_vars mdl0.idx).losses Var.loss mdl0.N =
        some (Var.loss mdl0.N) :=
  ⟨optimize_mdl0, by decide, by decide⟩

/-- Claim C1 (amended): loss variables are created for all indices `0..N`,
terminal index included; but the terminal loss variable occurs in no
constraint and not in the objective, so under any solver valuation that
leaves variables outside the problem unset, the terminal report row shows
unknown Losses, just like its Import and Export. -/
theorem claim_C1_terminal_losses (b : Battery) (prices : List ℚ)
    (fc : Option (List ℚ)) (ic : ℚ) (ts : String) (m : Model)
    (h : optimize b prices fc ic ts = .ok m) (sol : Var → Option ℚ)
    (hsol : ∀ v, v ∉ m.problemVars → sol v = none) :
    (setup_vars m.idx).losses = List.range (prices.length + 1) ∧
      Var.loss prices.length ∉ m.problemVars ∧
      ∃ rows : List Row, generate_outputs m sol = .ok rows ∧
        ∃ r, rows[prices.length]? = some r ∧
          r[4]? = some ("Losses [MW]", none) ∧
          r[0]? = some ("Import [MW]", none) ∧
          r[1]? = some ("Export [MW]", none) := by
  obtain ⟨hN, -, -, -, -, -, -⟩ := optimize_fields b prices fc ic ts m h
  have hc := optimize_coefs b prices fc ic ts m h
  have hnotmem : Var.loss prices.length ∉ m.problemVars := by
    rw [← hN]
    exact loss_terminal_not_mem m hc
  refine ⟨?_, hnotmem, ?_⟩
  · show m.idx = List.range (prices.length + 1)
    rw [Model.idx, hN]
  · have hnd := optimize_rowKeys_nodup b prices fc ic ts m h
    have hpl := optimize_price_lookup b prices fc ic ts m h
    have hfl := optimize_forecast_lookup b prices fc ic ts m h
    rcases generate_outputs_full b prices fc ic ts m h sol with
      ⟨rows, hrows, hlen, hget⟩
    rcases hget m.N le_rfl with ⟨r, hbr, hkr⟩
    rcases hfl m.N le_rfl with ⟨w, hw, -⟩
    have he := buildRow_terminal m sol none w hpl.2 hw hnd
    rw [he] at hbr
    cases Except.ok.inj hbr
    have hlossN : sol (.loss m.N) = none := hsol _ (hN ▸ hnotmem)
    refine ⟨rows, hrows, _, by rw [← hN]; exact hkr, ?_, ?_, ?_⟩
    · rw [hlossN]
      simp [List.getElem?_cons_succ, List.getElem?_cons_zero]
    · simp [List.getElem?_cons_zero]
    · simp [List.getElem?_cons_succ, List.getElem?_cons_zero]

theorem claim_C1_terminal_losses_witness :
    (setup_vars mdl0.idx).losses = List.range (([50] : List ℚ).length + 1) ∧
      Var.loss ([50] : List ℚ).length ∉ mdl0.problemVars ∧
      ∃ rows : List Row, generate_outputs mdl0 (fun _ => none) = .ok rows ∧
        ∃ r, rows[([50] : List ℚ).length]? = some r ∧
          r[4]? = some ("Losses [MW]", none) ∧
          r[0]? = some ("Import [MW]", none) ∧
          r[1]? = some ("Export [MW]", none) :=
  claim_C1_terminal_losses bat [50] none 0 "1hr" mdl0 optimize_mdl0
    (fun _ => none) (fun _ _ => rfl)

end EPL
